import Mathlib

/-!
Shallow embedding of `src/lib/utils.js` (Privacy Badger for Firefox):
the domain-hierarchy walk and the third-party classification logic.

JavaScript strings are modelled as lists of characters (`List Char`).
The platform collaborators (the eTLD service `Services.eTLD`, the
`mozIThirdPartyUtil` service and the ABP URI parser) are external to the
repository and are modelled as explicit parameters; a platform exception
is modelled as `none`.  An `nsIURI` argument of the domain functions is
modelled by its `host` string, the only field those functions read.
-/

namespace Badger

/-- The characters of a Lean string literal; used for concrete hosts. -/
def chars (s : String) : List Char := s.data

/-- JavaScript `s.split('.')`: splits at every dot, keeping empty pieces;
the empty string splits to `[""]`. -/
def splitOnDot : List Char → List (List Char)
  | [] => [[]]
  | c :: rest =>
    if c = '.' then [] :: splitOnDot rest
    else (c :: (splitOnDot rest).headI) :: (splitOnDot rest).tail

/-- JavaScript `arr.join('.')`. -/
def joinDots : List (List Char) → List Char
  | [] => []
  | [l] => l
  | l :: l2 :: ls => l ++ '.' :: joinDots (l2 :: ls)

/-- Modelled from the spec: the external PublicSuffixOracle
(`Services.eTLD` / `mozIThirdPartyUtil.getBaseDomain`), which is not part
of this repository.  `getPublicSuffix` returns the public suffix of a
host and `getBaseDomain` its base domain (eTLD+1); `none` models a thrown
platform exception (malformed or unresolvable host). -/
structure PublicSuffixOracle where
  getPublicSuffix : List Char → Option (List Char)
  getBaseDomain : List Char → Option (List Char)

/-- `exports.getBaseDomain` (utils.js line 169): direct delegation to the
platform service. -/
def getBaseDomain (o : PublicSuffixOracle) : List Char → Option (List Char) :=
  o.getBaseDomain

/-- `exports.getParentDomain` (utils.js lines 179-191).  JS `slice(1)` is
`List.tail`; the JS subtraction is over signed numbers, hence `Int`. -/
def getParentDomain (o : PublicSuffixOracle) (host : List Char) :
    Option (List Char) :=
  match o.getPublicSuffix host with
  | none => none
  | some suffix =>
    let suffixLength := (splitOnDot suffix).length
    let hostArray := splitOnDot host
    if ((hostArray.length : Int) - (suffixLength : Int) < 3) then
      o.getBaseDomain host
    else
      some (joinDots hostArray.tail)

/-- The `while` loop of `checkEachParentDomainString` (utils.js lines
214-218): while the label count exceeds the suffix label count, join the
labels, test the callback, and shift the leftmost label. -/
def walkLoop (cb : List Char → Bool) (suffixLength : Nat) :
    List (List Char) → Bool
  | [] => false
  | a :: rest =>
    if (0 : Int) < ((a :: rest).length : Int) - (suffixLength : Int) then
      if cb (joinDots (a :: rest)) then true
      else walkLoop cb suffixLength rest
    else false

/-- The list of arguments that the loop of `checkEachParentDomainString`
passes to `stringCallback`, in invocation order (the instrumented trace of
the same loop: it stops right after the first `true` result). -/
def walkTrace (cb : List Char → Bool) (suffixLength : Nat) :
    List (List Char) → List (List Char)
  | [] => []
  | a :: rest =>
    if (0 : Int) < ((a :: rest).length : Int) - (suffixLength : Int) then
      if cb (joinDots (a :: rest)) then [joinDots (a :: rest)]
      else joinDots (a :: rest) :: walkTrace cb suffixLength rest
    else []

/-- `exports.checkEachParentDomainString` (utils.js lines 204-220).
`none` models the propagated eTLD-service exception. -/
def checkEachParentDomainString (o : PublicSuffixOracle) (host : List Char)
    (stringCallback : List Char → Bool) (ignoreSelf : Bool) : Option Bool :=
  match o.getPublicSuffix host with
  | none => none
  | some suffix =>
    let suffixLength := (splitOnDot suffix).length
    let hostArray := splitOnDot host
    let hostArray2 := if ignoreSelf then hostArray.tail else hostArray
    some (walkLoop stringCallback suffixLength hostArray2)

/-- The arguments on which `checkEachParentDomainString o host cb ignoreSelf`
invokes `cb`, in invocation order (empty when the eTLD service throws,
since the exception precedes the loop). -/
def checkInvocations (o : PublicSuffixOracle) (host : List Char)
    (stringCallback : List Char → Bool) (ignoreSelf : Bool) :
    List (List Char) :=
  match o.getPublicSuffix host with
  | none => []
  | some suffix =>
    let suffixLength := (splitOnDot suffix).length
    let hostArray := splitOnDot host
    let hostArray2 := if ignoreSelf then hostArray.tail else hostArray
    walkTrace stringCallback suffixLength hostArray2

/-- `fakeThirdPartyURLs` (utils.js lines 14-16). -/
def fakeThirdPartyURLs : List (List Char) :=
  [chars "http://localhost:8099/test-request-3rd-party-cookieblock.sjs"]

/-- A parsed URI, modelled by its host, the only field this fragment reads. -/
structure URI where
  host : List Char
deriving DecidableEq

/-- Modelled from the spec: the external URI parser (`ABPUtils.makeURI`),
failing (`none`) on malformed input. -/
structure URIParser where
  makeURI : List Char → Option URI

/-- Modelled from the spec: the external `mozIThirdPartyUtil.isThirdPartyURI`
platform service: third-party iff the base domains of the two URIs differ;
fails when a base domain cannot be determined. -/
def thirdPartyUtilIsThirdPartyURI (o : PublicSuffixOracle) (u d : URI) :
    Option Bool :=
  match o.getBaseDomain u.host, o.getBaseDomain d.host with
  | some b1, some b2 => some (b1 != b2)
  | _, _ => none

/-- `exports.isThirdPartyURI` (utils.js lines 154-161): the fake-URL list
is consulted first, then both URLs are parsed and handed to the platform
service.  `none` models a propagated parse/lookup failure. -/
def isThirdPartyURI (pr : URIParser) (o : PublicSuffixOracle)
    (uri docUri : List Char) : Option Bool :=
  if uri ∈ fakeThirdPartyURLs then some true
  else
    match pr.makeURI uri, pr.makeURI docUri with
    | some u, some d => thirdPartyUtilIsThirdPartyURI o u d
    | _, _ => none

/-- A channel, modelled by its URI spec string (`channel.URI.spec`), the
only field `isThirdPartyChannel` reads directly. -/
structure Channel where
  spec : List Char

/-- `exports.isThirdPartyChannel` (utils.js lines 227-235).  The external
`mozIThirdPartyUtil.isThirdPartyChannel` ambient-context classification is
the parameter `tp`; `tp ch = none` models a thrown lookup failure, which
the `catch` turns into `false`. -/
def isThirdPartyChannel (tp : Channel → Option Bool) (ch : Channel) : Bool :=
  if ch.spec ∈ fakeThirdPartyURLs then true
  else
    match tp ch with
    | some b => b
    | none => false

/-- A small concrete public-suffix table for concrete test hosts, agreeing
with the real public-suffix list on those hosts (`co.uk` and `com` are
public suffixes). -/
def suffixTable : List (List Char × List Char) :=
  [ (chars "www.radio.bbc.co.uk", chars "co.uk"),
    (chars "radio.bbc.co.uk", chars "co.uk"),
    (chars "bbc.co.uk", chars "co.uk"),
    (chars "co.uk", chars "co.uk"),
    (chars "a.example.com", chars "com"),
    (chars "example.com", chars "com") ]

/-- Base domains for the hosts of `suffixTable`; a bare public suffix has
no base domain (the platform service throws on it). -/
def baseTable : List (List Char × List Char) :=
  [ (chars "www.radio.bbc.co.uk", chars "bbc.co.uk"),
    (chars "radio.bbc.co.uk", chars "bbc.co.uk"),
    (chars "bbc.co.uk", chars "bbc.co.uk"),
    (chars "a.example.com", chars "example.com"),
    (chars "example.com", chars "example.com") ]

/-- A concrete oracle over the test hosts, failing on all other hosts. -/
def testOracle : PublicSuffixOracle where
  getPublicSuffix h := suffixTable.lookup h
  getBaseDomain h := baseTable.lookup h

/-- A concrete parser that treats the whole URL string as the host. -/
def hostParser : URIParser where
  makeURI s := some ⟨s⟩

/-! Basic facts about `splitOnDot` and `joinDots`. -/

/-- `split` never returns an empty array. -/
theorem splitOnDot_ne_nil (s : List Char) : splitOnDot s ≠ [] := by
  cases s with
  | nil => simp [splitOnDot]
  | cons c rest =>
    simp only [splitOnDot]
    split <;> simp

/-- No piece returned by `split('.')` contains a dot. -/
theorem splitOnDot_dotFree : ∀ (s : List Char), ∀ l ∈ splitOnDot s, '.' ∉ l := by
  intro s
  induction s with
  | nil =>
    intro l hl
    simp [splitOnDot] at hl
    simp [hl]
  | cons c rest ih =>
    intro l hl
    simp only [splitOnDot] at hl
    by_cases hc : c = '.'
    · rw [if_pos hc] at hl
      rcases List.mem_cons.mp hl with h | h
      · simp [h]
      · exact ih l h
    · rw [if_neg hc] at hl
      rcases List.mem_cons.mp hl with h | h
      · subst h
        intro hmem
        rcases List.mem_cons.mp hmem with h | h
        · exact hc h.symm
        · have hne := splitOnDot_ne_nil rest
          have hmm : (splitOnDot rest).headI ∈ splitOnDot rest := by
            cases hsp : splitOnDot rest with
            | nil => exact absurd hsp hne
            | cons a as => simp [List.headI]
          exact ih _ hmm h
      · exact ih l (List.mem_of_mem_tail h)

/-- A dot-free string splits to the one-piece array holding it. -/
theorem splitOnDot_single : ∀ (l : List Char), '.' ∉ l → splitOnDot l = [l] := by
  intro l
  induction l with
  | nil => intro; rfl
  | cons c rest ih =>
    intro h
    have hc : ¬ c = '.' := fun hh => h (by simp [hh])
    have hr : splitOnDot rest = [rest] :=
      ih (fun hm => h (List.mem_cons_of_mem _ hm))
    simp [splitOnDot, hc, hr]

/-- Splitting a string of the form `l ++ "." ++ t` with dot-free `l`
peels off `l` as the first piece. -/
theorem splitOnDot_append : ∀ (l t : List Char), '.' ∉ l →
    splitOnDot (l ++ '.' :: t) = l :: splitOnDot t := by
  intro l
  induction l with
  | nil =>
    intro t _
    simp [splitOnDot]
  | cons c rest ih =>
    intro t h
    have hc : ¬ c = '.' := fun hh => h (by simp [hh])
    have hr := ih t (fun hm => h (List.mem_cons_of_mem _ hm))
    simp [splitOnDot, hc, hr]

/-- `split('.')` undoes `join('.')` on a nonempty array of dot-free pieces. -/
theorem splitOnDot_joinDots : ∀ (a : List (List Char)), a ≠ [] →
    (∀ l ∈ a, '.' ∉ l) → splitOnDot (joinDots a) = a := by
  intro a
  induction a with
  | nil => intro h; exact absurd rfl h
  | cons l ls ih =>
    intro _ hfree
    cases ls with
    | nil => simpa [joinDots] using splitOnDot_single l (hfree l (by simp))
    | cons l2 ls2 =>
      have h1 : '.' ∉ l := hfree l (by simp)
      have h2 : splitOnDot (joinDots (l2 :: ls2)) = l2 :: ls2 :=
        ih (by simp) (fun x hx => hfree x (List.mem_cons_of_mem _ hx))
      simp [joinDots, splitOnDot_append l _ h1, h2]

/-- The JS loop guard `arr.length - suffixLength > 0` over signed numbers,
as a comparison of natural numbers. -/
theorem intCond (l n : Nat) : ((0 : Int) < (l : Int) - (n : Int)) ↔ n < l := by
  omega

/-! Facts about the loop of `checkEachParentDomainString`. -/

/-- Every argument the loop passes to the callback is the join of a
suffix of the label array that is longer than the public suffix. -/
theorem mem_walkTrace (cb : List Char → Bool) (n : Nat) :
    ∀ (arr : List (List Char)) (x : List Char), x ∈ walkTrace cb n arr →
      ∃ a, a <:+ arr ∧ n < a.length ∧ x = joinDots a := by
  intro arr
  induction arr with
  | nil => intro x hx; simp [walkTrace] at hx
  | cons b rest ih =>
    intro x hx
    simp only [walkTrace] at hx
    by_cases hcond : (0 : Int) < ((b :: rest).length : Int) - (n : Int)
    · rw [if_pos hcond] at hx
      cases hcb : cb (joinDots (b :: rest)) with
      | true =>
        simp [hcb] at hx
        exact ⟨b :: rest, List.suffix_refl _, (intCond _ _).mp hcond, hx⟩
      | false =>
        simp only [hcb, if_neg Bool.false_ne_true] at hx
        rcases List.mem_cons.mp hx with h | h
        · exact ⟨b :: rest, List.suffix_refl _, (intCond _ _).mp hcond, h⟩
        · obtain ⟨a, ha, hn, hxa⟩ := ih x h
          exact ⟨a, ha.trans (List.suffix_cons b rest), hn, hxa⟩
    · rw [if_neg hcond] at hx
      simp at hx

/-- The loop result is `true` exactly when some invocation returned `true`. -/
theorem walkLoop_eq_any (cb : List Char → Bool) (n : Nat) :
    ∀ (arr : List (List Char)),
      walkLoop cb n arr = (walkTrace cb n arr).any cb := by
  intro arr
  induction arr with
  | nil => simp [walkLoop, walkTrace]
  | cons b rest ih =>
    simp only [walkLoop, walkTrace]
    by_cases hcond : (0 : Int) < ((b :: rest).length : Int) - (n : Int)
    · rw [if_pos hcond, if_pos hcond]
      cases hcb : cb (joinDots (b :: rest)) with
      | true => simp [hcb]
      | false => simp [hcb, ih]
    · rw [if_neg hcond, if_neg hcond]
      simp

/-- Every invocation argument that has a later invocation after it got a
`false` answer: the loop never continues past a `true`. -/
theorem walkTrace_pairwise_false (cb : List Char → Bool) (n : Nat) :
    ∀ (arr : List (List Char)),
      (walkTrace cb n arr).Pairwise (fun x _ => cb x = false) := by
  intro arr
  induction arr with
  | nil => simp [walkTrace]
  | cons b rest ih =>
    simp only [walkTrace]
    by_cases hcond : (0 : Int) < ((b :: rest).length : Int) - (n : Int)
    · rw [if_pos hcond]
      cases hcb : cb (joinDots (b :: rest)) with
      | true => simp
      | false => exact List.pairwise_cons.mpr ⟨fun y _ => hcb, ih⟩
    · rw [if_neg hcond]
      simp

/-- The loop ignores the pointwise-equal replacement of its callback. -/
theorem walkTrace_congr (f g : List Char → Bool) (n : Nat)
    (hfg : ∀ x, f x = g x) :
    ∀ (arr : List (List Char)), walkTrace f n arr = walkTrace g n arr := by
  intro arr
  induction arr with
  | nil => rfl
  | cons b rest ih => simp only [walkTrace, hfg, ih]

/-- Result version of `walkTrace_congr`. -/
theorem walkLoop_congr (f g : List Char → Bool) (n : Nat)
    (hfg : ∀ x, f x = g x) :
    ∀ (arr : List (List Char)), walkLoop f n arr = walkLoop g n arr := by
  intro arr
  induction arr with
  | nil => rfl
  | cons b rest ih => simp only [walkLoop, hfg, ih]

/-- When the label array is not longer than the suffix, the loop exits at
once. -/
theorem walkLoop_stop (cb : List Char → Bool) (n : Nat)
    (arr : List (List Char)) (h : arr.length ≤ n) : walkLoop cb n arr = false := by
  cases arr with
  | nil => rfl
  | cons b rest =>
    have hc : ¬ ((0 : Int) < ((b :: rest).length : Int) - (n : Int)) := by
      rw [intCond]
      omega
    simp only [walkLoop]
    rw [if_neg hc]

/-- When the label array is not longer than the suffix, the callback is
never invoked. -/
theorem walkTrace_stop (cb : List Char → Bool) (n : Nat)
    (arr : List (List Char)) (h : arr.length ≤ n) : walkTrace cb n arr = [] := by
  cases arr with
  | nil => rfl
  | cons b rest =>
    have hc : ¬ ((0 : Int) < ((b :: rest).length : Int) - (n : Int)) := by
      rw [intCond]
      omega
    simp only [walkTrace]
    rw [if_neg hc]

/-- Combined form: every invocation argument splits back to the suffix of
the label array it was joined from. -/
theorem walkTrace_labels (cb : List Char → Bool) (n : Nat)
    (arr : List (List Char)) (hfree : ∀ l ∈ arr, '.' ∉ l) :
    ∀ x ∈ walkTrace cb n arr, ∃ a, a <:+ arr ∧ n < a.length ∧
      x = joinDots a ∧ splitOnDot x = a := by
  intro x hx
  obtain ⟨a, ha, hn, hxa⟩ := mem_walkTrace cb n arr x hx
  have hane : a ≠ [] := by
    intro h
    rw [h] at hn
    simp at hn
  have hafree : ∀ l ∈ a, '.' ∉ l := fun l hl => hfree l (ha.subset hl)
  exact ⟨a, ha, hn, hxa, by rw [hxa]; exact splitOnDot_joinDots a hane hafree⟩

/-- Every string passed to the callback has strictly more labels than the
public suffix. -/
theorem walkTrace_floor (cb : List Char → Bool) (n : Nat)
    (arr : List (List Char)) (hfree : ∀ l ∈ arr, '.' ∉ l) :
    ∀ x ∈ walkTrace cb n arr, n < (splitOnDot x).length := by
  intro x hx
  obtain ⟨a, _, hn, _, hsx⟩ := walkTrace_labels cb n arr hfree x hx
  rw [hsx]
  exact hn

/-- Label counts of the invocation arguments are strictly decreasing. -/
theorem walkTrace_pairwise_lt (cb : List Char → Bool) (n : Nat) :
    ∀ (arr : List (List Char)), (∀ l ∈ arr, '.' ∉ l) →
      (walkTrace cb n arr).Pairwise
        (fun x y => (splitOnDot y).length < (splitOnDot x).length) := by
  intro arr
  induction arr with
  | nil => intro _; simp [walkTrace]
  | cons b rest ih =>
    intro hfree
    have hrestfree : ∀ l ∈ rest, '.' ∉ l :=
      fun l hl => hfree l (List.mem_cons_of_mem _ hl)
    simp only [walkTrace]
    by_cases hcond : (0 : Int) < ((b :: rest).length : Int) - (n : Int)
    · rw [if_pos hcond]
      cases hcb : cb (joinDots (b :: rest)) with
      | true => simp
      | false =>
        refine List.pairwise_cons.mpr ⟨?_, ih hrestfree⟩
        intro y hy
        obtain ⟨a, ha, hn, _, hsy⟩ := walkTrace_labels cb n rest hrestfree y hy
        have hhead : splitOnDot (joinDots (b :: rest)) = b :: rest :=
          splitOnDot_joinDots _ (by simp) hfree
        rw [hsy, hhead]
        have hle := ha.length_le
        simp only [List.length_cons]
        omega
    · rw [if_neg hcond]
      simp

/-! Unfolding lemmas for the two entry points. -/

/-- `checkEachParentDomainString` on a host whose suffix resolves. -/
theorem checkEachParentDomainString_some (o : PublicSuffixOracle)
    (host : List Char) (cb : List Char → Bool) (ign : Bool)
    (suffix : List Char) (hs : o.getPublicSuffix host = some suffix) :
    checkEachParentDomainString o host cb ign
      = some (walkLoop cb (splitOnDot suffix).length
          (if ign then (splitOnDot host).tail else splitOnDot host)) := by
  simp only [checkEachParentDomainString, hs]

/-- `checkInvocations` on a host whose suffix resolves. -/
theorem checkInvocations_some (o : PublicSuffixOracle)
    (host : List Char) (cb : List Char → Bool) (ign : Bool)
    (suffix : List Char) (hs : o.getPublicSuffix host = some suffix) :
    checkInvocations o host cb ign
      = walkTrace cb (splitOnDot suffix).length
          (if ign then (splitOnDot host).tail else splitOnDot host) := by
  simp only [checkInvocations, hs]

/-- The label arrays the walk starts from are dot-free piecewise. -/
theorem hostArray_dotFree (host : List Char) (ign : Bool) :
    ∀ l ∈ (if ign then (splitOnDot host).tail else splitOnDot host), '.' ∉ l := by
  intro l hl
  cases ign with
  | true => exact splitOnDot_dotFree host l (List.mem_of_mem_tail (by simpa using hl))
  | false => exact splitOnDot_dotFree host l (by simpa using hl)

/-! Claim theorems. -/

/-- Claim C1, counterexample: for host `radio.bbc.co.uk` (public suffix
`co.uk`, base domain `bbc.co.uk`) and an always-false callback, the loop
DOES invoke the callback on the base domain `bbc.co.uk`, whose label
count is the public-suffix label count plus one. -/
theorem checkInvocations_hits_base_domain :
    testOracle.getPublicSuffix (chars "radio.bbc.co.uk") = some (chars "co.uk")
    ∧ testOracle.getBaseDomain (chars "radio.bbc.co.uk") = some (chars "bbc.co.uk")
    ∧ (splitOnDot (chars "bbc.co.uk")).length
        = (splitOnDot (chars "co.uk")).length + 1
    ∧ chars "bbc.co.uk" ∈
        checkInvocations testOracle (chars "radio.bbc.co.uk") (fun _ => false) false := by
  decide

/-- Claim C1, amended: for every host and predicate, the loop never
invokes the predicate on a string with at most as many labels as the
public suffix — in particular never on the bare public suffix.  (The
loop stops before the string whose label count equals the public-suffix
label count; the eTLD+1 itself is the last string tested.) -/
theorem checkInvocations_above_suffix
    (o : PublicSuffixOracle) (host : List Char) (p : List Char → Bool)
    (ign : Bool) (suffix : List Char)
    (hs : o.getPublicSuffix host = some suffix) :
    ∀ x ∈ checkInvocations o host p ign,
      (splitOnDot suffix).length < (splitOnDot x).length := by
  intro x hx
  rw [checkInvocations_some o host p ign suffix hs] at hx
  exact walkTrace_floor p _ _ (hostArray_dotFree host ign) x hx

/-- Witness for `checkInvocations_above_suffix`, instantiated at the
first tested string. -/
theorem checkInvocations_above_suffix_witness :
    (splitOnDot (chars "co.uk")).length
      < (splitOnDot (chars "radio.bbc.co.uk")).length :=
  checkInvocations_above_suffix testOracle (chars "radio.bbc.co.uk")
    (fun _ => false) false (chars "co.uk") (by decide)
    (chars "radio.bbc.co.uk") (by decide)

/-- Claim C2: for `radio.bbc.co.uk`, whose public suffix is `co.uk`, and
any always-false predicate, the predicate is invoked exactly twice, first
on `radio.bbc.co.uk` and then on `bbc.co.uk`, never on `co.uk`, and the
walk returns false. -/
theorem checkInvocations_bbc_example
    (p : List Char → Bool) (hp : ∀ x, p x = false) :
    testOracle.getPublicSuffix (chars "radio.bbc.co.uk") = some (chars "co.uk")
    ∧ checkInvocations testOracle (chars "radio.bbc.co.uk") p false
        = [chars "radio.bbc.co.uk", chars "bbc.co.uk"]
    ∧ chars "co.uk" ∉ checkInvocations testOracle (chars "radio.bbc.co.uk") p false
    ∧ checkEachParentDomainString testOracle (chars "radio.bbc.co.uk") p false
        = some false := by
  have hsf : testOracle.getPublicSuffix (chars "radio.bbc.co.uk")
      = some (chars "co.uk") := by decide
  have h1 : checkInvocations testOracle (chars "radio.bbc.co.uk") p false
      = checkInvocations testOracle (chars "radio.bbc.co.uk") (fun _ => false) false := by
    rw [checkInvocations_some _ _ _ _ _ hsf, checkInvocations_some _ _ _ _ _ hsf]
    exact walkTrace_congr p (fun _ => false) _ hp _
  have h2 : checkEachParentDomainString testOracle (chars "radio.bbc.co.uk") p false
      = checkEachParentDomainString testOracle (chars "radio.bbc.co.uk") (fun _ => false) false := by
    rw [checkEachParentDomainString_some _ _ _ _ _ hsf,
      checkEachParentDomainString_some _ _ _ _ _ hsf,
      walkLoop_congr p (fun _ => false) _ hp _]
  refine ⟨by decide, ?_, ?_, ?_⟩
  · rw [h1]; decide
  · rw [h1]; decide
  · rw [h2]; decide

/-- Witness for `checkInvocations_bbc_example`. -/
theorem checkInvocations_bbc_example_witness :
    testOracle.getPublicSuffix (chars "radio.bbc.co.uk") = some (chars "co.uk")
    ∧ checkInvocations testOracle (chars "radio.bbc.co.uk") (fun _ => false) false
        = [chars "radio.bbc.co.uk", chars "bbc.co.uk"]
    ∧ chars "co.uk" ∉
        checkInvocations testOracle (chars "radio.bbc.co.uk") (fun _ => false) false
    ∧ checkEachParentDomainString testOracle (chars "radio.bbc.co.uk")
        (fun _ => false) false = some false :=
  checkInvocations_bbc_example (fun _ => false) (fun _ => rfl)

/-- Claim C3: `isThirdPartyURI(u, u)` is true for `u` on the fake list —
for every parser, oracle and document URL, since the override precedes
any parsing or base-domain work — and false for a valid `u` off the list. -/
theorem isThirdPartyURI_self (u : List Char) :
    (u ∈ fakeThirdPartyURLs →
      ∀ (pr : URIParser) (o : PublicSuffixOracle) (d : List Char),
        isThirdPartyURI pr o u d = some true)
    ∧ (u ∉ fakeThirdPartyURLs →
      ∀ (pr : URIParser) (o : PublicSuffixOracle) (uu : URI) (b : List Char),
        pr.makeURI u = some uu → o.getBaseDomain uu.host = some b →
        isThirdPartyURI pr o u u = some false) := by
  constructor
  · intro hu pr o d
    simp [isThirdPartyURI, hu]
  · intro hu pr o uu b hparse hbase
    simp [isThirdPartyURI, hu, hparse, thirdPartyUtilIsThirdPartyURI, hbase]

/-- Witness for `isThirdPartyURI_self`. -/
theorem isThirdPartyURI_self_witness :
    isThirdPartyURI hostParser testOracle
      (chars "http://localhost:8099/test-request-3rd-party-cookieblock.sjs")
      (chars "doc") = some true
    ∧ isThirdPartyURI hostParser testOracle (chars "a.example.com")
        (chars "a.example.com") = some false :=
  ⟨(isThirdPartyURI_self _).1 (by decide) hostParser testOracle (chars "doc"),
   (isThirdPartyURI_self _).2 (by decide) hostParser testOracle
     ⟨chars "a.example.com"⟩ (chars "example.com") (by decide) (by decide)⟩

/-- Claim C4: the walk returns true exactly when some invocation returned
true (it returns as soon as the predicate does), the predicate is never
invoked on a candidate after an invocation that returned true, and no
candidate is tested twice. -/
theorem checkEachParentDomainString_short_circuit
    (o : PublicSuffixOracle) (host : List Char) (p : List Char → Bool)
    (ign : Bool) (suffix : List Char)
    (hs : o.getPublicSuffix host = some suffix) :
    checkEachParentDomainString o host p ign
      = some ((checkInvocations o host p ign).any p)
    ∧ (checkInvocations o host p ign).Pairwise (fun x _ => p x = false)
    ∧ (checkInvocations o host p ign).Nodup := by
  refine ⟨?_, ?_, ?_⟩
  · rw [checkEachParentDomainString_some o host p ign suffix hs,
      checkInvocations_some o host p ign suffix hs, walkLoop_eq_any]
  · rw [checkInvocations_some o host p ign suffix hs]
    exact walkTrace_pairwise_false p _ _
  · rw [checkInvocations_some o host p ign suffix hs]
    refine (walkTrace_pairwise_lt p _ _ (hostArray_dotFree host ign)).imp ?_
    intro a b h heq
    rw [heq] at h
    exact lt_irrefl _ h

/-- Witness for `checkEachParentDomainString_short_circuit`. -/
theorem checkEachParentDomainString_short_circuit_witness :
    checkEachParentDomainString testOracle (chars "www.radio.bbc.co.uk")
        (fun _ => true) false
      = some ((checkInvocations testOracle (chars "www.radio.bbc.co.uk")
          (fun _ => true) false).any (fun _ => true))
    ∧ (checkInvocations testOracle (chars "www.radio.bbc.co.uk")
        (fun _ => true) false).Pairwise (fun x _ => (fun _ => true) x = false)
    ∧ (checkInvocations testOracle (chars "www.radio.bbc.co.uk")
        (fun _ => true) false).Nodup :=
  checkEachParentDomainString_short_circuit testOracle
    (chars "www.radio.bbc.co.uk") (fun _ => true) false (chars "co.uk") (by decide)

/-- Claim C5, counterexample: for host `bbc.co.uk` — a base domain, whose
immediate parent per `getParentDomain` is `bbc.co.uk` itself — the walk
with `ignoreSelf = true` never invokes the predicate at all, so in
particular not on the immediate parent. -/
theorem checkInvocations_ignoreSelf_base_domain :
    getParentDomain testOracle (chars "bbc.co.uk") = some (chars "bbc.co.uk")
    ∧ checkInvocations testOracle (chars "bbc.co.uk") (fun _ => true) true = []
    ∧ checkEachParentDomainString testOracle (chars "bbc.co.uk")
        (fun _ => true) true = some false := by
  decide

/-- Claim C5, amended: with `ignoreSelf = true` the predicate is never
invoked on the host itself, and when the host lies strictly above its
base domain the first invocation is on the host's immediate parent (the
host with its leftmost label removed); a host at or below its base domain
gets no invocation at all. -/
theorem checkEachParentDomainString_ignoreSelf
    (o : PublicSuffixOracle) (host : List Char) (p : List Char → Bool)
    (suffix : List Char) (hs : o.getPublicSuffix host = some suffix) :
    (∀ x ∈ checkInvocations o host p true, x ≠ host)
    ∧ ((splitOnDot suffix).length + 1 < (splitOnDot host).length →
        (checkInvocations o host p true).head?
          = some (joinDots (splitOnDot host).tail)) := by
  constructor
  · intro x hx
    rw [checkInvocations_some o host p true suffix hs, if_pos rfl] at hx
    obtain ⟨a, ha, hn, _, hsx⟩ :=
      walkTrace_labels p _ _
        (fun l hl => splitOnDot_dotFree host l (List.mem_of_mem_tail hl)) x hx
    intro hxh
    have hlen1 := ha.length_le
    have hlen2 : (splitOnDot host).tail.length = (splitOnDot host).length - 1 :=
      List.length_tail _
    have hpos : 0 < (splitOnDot host).length :=
      List.length_pos.mpr (splitOnDot_ne_nil host)
    rw [hxh] at hsx
    have : a.length = (splitOnDot host).length := by rw [← hsx]
    omega
  · intro hlt
    rw [checkInvocations_some o host p true suffix hs, if_pos rfl]
    have hLne := splitOnDot_ne_nil host
    cases hL : splitOnDot host with
    | nil => exact absurd hL hLne
    | cons b rest =>
      rw [hL] at hlt
      simp only [List.length_cons] at hlt
      cases rest with
      | nil => simp at hlt
      | cons c rest2 =>
        simp only [List.tail_cons]
        have hcond : (0 : Int) < (((c :: rest2).length : Int))
            - (((splitOnDot suffix).length : Int)) := by
          rw [intCond]
          simp only [List.length_cons] at hlt ⊢
          omega
        simp only [walkTrace]
        rw [if_pos hcond]
        cases p (joinDots (c :: rest2)) <;> simp

/-- Witness for `checkEachParentDomainString_ignoreSelf`, instantiated at
the first tested string of the `ignoreSelf` walk. -/
theorem checkEachParentDomainString_ignoreSelf_witness :
    chars "radio.bbc.co.uk" ≠ chars "www.radio.bbc.co.uk"
    ∧ (checkInvocations testOracle (chars "www.radio.bbc.co.uk")
          (fun _ => false) true).head?
        = some (joinDots (splitOnDot (chars "www.radio.bbc.co.uk")).tail) :=
  ⟨(checkEachParentDomainString_ignoreSelf testOracle
      (chars "www.radio.bbc.co.uk") (fun _ => false) (chars "co.uk")
      (by decide)).1 (chars "radio.bbc.co.uk") (by decide),
   (checkEachParentDomainString_ignoreSelf testOracle
      (chars "www.radio.bbc.co.uk") (fun _ => false) (chars "co.uk")
      (by decide)).2 (by decide)⟩

/-- Claim C6: in the sequence of tested strings, each entry has strictly
fewer labels than its predecessor, and no entry has fewer labels than the
base domain (public suffix plus one label). -/
theorem checkInvocations_chain
    (o : PublicSuffixOracle) (host : List Char) (p : List Char → Bool)
    (ign : Bool) (suffix : List Char)
    (hs : o.getPublicSuffix host = some suffix) :
    (checkInvocations o host p ign).Chain'
        (fun x y => (splitOnDot y).length < (splitOnDot x).length)
    ∧ ∀ x ∈ checkInvocations o host p ign,
        (splitOnDot suffix).length + 1 ≤ (splitOnDot x).length := by
  constructor
  · rw [checkInvocations_some o host p ign suffix hs]
    exact (walkTrace_pairwise_lt p _ _ (hostArray_dotFree host ign)).chain'
  · intro x hx
    rw [checkInvocations_some o host p ign suffix hs] at hx
    exact walkTrace_floor p _ _ (hostArray_dotFree host ign) x hx

/-- Witness for `checkInvocations_chain`, with the floor part
instantiated at the last tested string (the base domain). -/
theorem checkInvocations_chain_witness :
    (checkInvocations testOracle (chars "www.radio.bbc.co.uk")
        (fun _ => false) false).Chain'
        (fun x y => (splitOnDot y).length < (splitOnDot x).length)
    ∧ (splitOnDot (chars "co.uk")).length + 1
        ≤ (splitOnDot (chars "bbc.co.uk")).length :=
  ⟨(checkInvocations_chain testOracle (chars "www.radio.bbc.co.uk")
      (fun _ => false) false (chars "co.uk") (by decide)).1,
   (checkInvocations_chain testOracle (chars "www.radio.bbc.co.uk")
      (fun _ => false) false (chars "co.uk") (by decide)).2
     (chars "bbc.co.uk") (by decide)⟩

/-- Claim C7: when the eTLD service cannot determine a public suffix for
the host, `checkEachParentDomainString` fails (the exception propagates)
and the predicate is never invoked: no partial walk happens. -/
theorem checkEachParentDomainString_oracle_failure
    (o : PublicSuffixOracle) (host : List Char) (p : List Char → Bool)
    (ign : Bool) (hs : o.getPublicSuffix host = none) :
    checkEachParentDomainString o host p ign = none
    ∧ checkInvocations o host p ign = [] := by
  constructor
  · simp [checkEachParentDomainString, hs]
  · simp [checkInvocations, hs]

/-- Witness for `checkEachParentDomainString_oracle_failure`. -/
theorem checkEachParentDomainString_oracle_failure_witness :
    checkEachParentDomainString testOracle (chars "not.in.any.table")
        (fun _ => true) false = none
    ∧ checkInvocations testOracle (chars "not.in.any.table")
        (fun _ => true) false = [] :=
  checkEachParentDomainString_oracle_failure testOracle
    (chars "not.in.any.table") (fun _ => true) false (by decide)

/-- Claim C8, counterexample: a channel whose URL is on the fake list and
whose ambient classification lookup fails is classified `true`, not
`false`: the allow-list check precedes the guarded lookup. -/
theorem isThirdPartyChannel_fake_url_failure :
    (fun _ : Channel => (none : Option Bool))
        ⟨chars "http://localhost:8099/test-request-3rd-party-cookieblock.sjs"⟩ = none
    ∧ isThirdPartyChannel (fun _ => none)
        ⟨chars "http://localhost:8099/test-request-3rd-party-cookieblock.sjs"⟩ = true :=
  ⟨rfl, by decide⟩

/-- Claim C8, amended: for every channel whose URL is NOT on the fake
list and whose ambient classification lookup fails,
`isThirdPartyChannel` returns false (fail-open) — and, being a total
boolean function, it never propagates an error; a channel on the fake
list returns true without consulting the lookup. -/
theorem isThirdPartyChannel_fail_open
    (tp : Channel → Option Bool) (ch : Channel)
    (hnot : ch.spec ∉ fakeThirdPartyURLs) (hfail : tp ch = none) :
    isThirdPartyChannel tp ch = false := by
  simp [isThirdPartyChannel, hnot, hfail]

/-- Witness for `isThirdPartyChannel_fail_open`. -/
theorem isThirdPartyChannel_fail_open_witness :
    isThirdPartyChannel (fun _ => none) ⟨chars "http://x/"⟩ = false :=
  isThirdPartyChannel_fail_open (fun _ => none) ⟨chars "http://x/"⟩
    (by decide) rfl

/-- Claim C9: `getParentDomain` is idempotent at the base-domain floor:
whenever `b` is the base domain the oracle computed for some host — so
that, by the public-suffix-list contract of the external oracle, `b` has
exactly one label more than its own public suffix and is its own base
domain — `getParentDomain b = b`. -/
theorem getParentDomain_base_domain_fixed
    (o : PublicSuffixOracle) (h b s : List Char)
    (_hb : o.getBaseDomain h = some b)
    (hs : o.getPublicSuffix b = some s)
    (hlen : (splitOnDot b).length = (splitOnDot s).length + 1)
    (hfix : o.getBaseDomain b = some b) :
    getParentDomain o b = some b := by
  have hcond : ((splitOnDot b).length : Int) - ((splitOnDot s).length : Int) < 3 := by
    rw [hlen]
    push_cast
    omega
  simp only [getParentDomain, hs]
  rw [if_pos hcond]
  exact hfix

/-- Witness for `getParentDomain_base_domain_fixed`. -/
theorem getParentDomain_base_domain_fixed_witness :
    getParentDomain testOracle (chars "bbc.co.uk") = some (chars "bbc.co.uk") :=
  getParentDomain_base_domain_fixed testOracle (chars "radio.bbc.co.uk")
    (chars "bbc.co.uk") (chars "co.uk") (by decide) (by decide) (by decide) (by decide)

/-- Claim C10: when the host has exactly as many labels as its public
suffix (the host is a bare public suffix), `checkEachParentDomainString`
returns false without ever invoking the predicate, for either value of
`ignoreSelf`. -/
theorem checkEachParentDomainString_bare_suffix
    (o : PublicSuffixOracle) (host : List Char) (p : List Char → Bool)
    (suffix : List Char) (hs : o.getPublicSuffix host = some suffix)
    (hlen : (splitOnDot host).length = (splitOnDot suffix).length) :
    ∀ ign, checkEachParentDomainString o host p ign = some false
      ∧ checkInvocations o host p ign = [] := by
  intro ign
  have hlen2 : (if ign then (splitOnDot host).tail else splitOnDot host).length
      ≤ (splitOnDot suffix).length := by
    cases ign with
    | false =>
      rw [if_neg Bool.false_ne_true, hlen]
    | true =>
      rw [if_pos rfl, List.length_tail, hlen]
      omega
  constructor
  · rw [checkEachParentDomainString_some o host p ign suffix hs,
      walkLoop_stop p _ _ hlen2]
  · rw [checkInvocations_some o host p ign suffix hs,
      walkTrace_stop p _ _ hlen2]

/-- Witness for `checkEachParentDomainString_bare_suffix`. -/
theorem checkEachParentDomainString_bare_suffix_witness :
    (checkEachParentDomainString testOracle (chars "co.uk") (fun _ => true) false
        = some false
      ∧ checkInvocations testOracle (chars "co.uk") (fun _ => true) false = [])
    ∧ (checkEachParentDomainString testOracle (chars "co.uk") (fun _ => true) true
        = some false
      ∧ checkInvocations testOracle (chars "co.uk") (fun _ => true) true = []) :=
  ⟨checkEachParentDomainString_bare_suffix testOracle (chars "co.uk")
      (fun _ => true) (chars "co.uk") (by decide) (by decide) false,
   checkEachParentDomainString_bare_suffix testOracle (chars "co.uk")
      (fun _ => true) (chars "co.uk") (by decide) (by decide) true⟩

end Badger
